import Mathlib

/-!
Verification of the FatELF glue engine (haiku-buildtools, `fatelf/utils`).

The definitions below are a shallow embedding of `fatelf-glue.c` and
`fatelf-haiku.c`.  Pure helpers that live in `fatelf-utils.c` (not part of
the excerpted sources) are modelled from the specification and marked as
such in their doc comments.  Machine integers are embedded as `Nat`, with
an explicit `% 2^64` wherever the C code computes in `uint64_t` and the
result could wrap.
-/

namespace FatElf

/-- 2^64, the modulus of `uint64_t` arithmetic. -/
def U64 : Nat := 18446744073709551616

/-- `uint64_t` addition, as performed by the C code. -/
def add64 (a b : Nat) : Nat := (a + b) % U64

/-- `uint64_t` multiplication, as performed by the C code. -/
def mul64 (a b : Nat) : Nat := (a * b) % U64

/-- The `ALIGN(v, a)` macro of `fatelf-haiku.c`:
`((v + a - 1) / a) * a`, computed in `uint64_t`. -/
def align64 (v a : Nat) : Nat := ((v + (a - 1)) % U64 / a * a) % U64

/-- Mathematical round-up alignment (no wraparound), as used by the
specification text. -/
def alignUp (v a : Nat) : Nat := (v + (a - 1)) / a * a

theorem alignUp_mod (v a : Nat) : alignUp v a % a = 0 := by
  unfold alignUp
  exact Nat.mul_mod_left _ _

theorem alignUp_ge (v a : Nat) (ha : 0 < a) : v ≤ alignUp v a := by
  unfold alignUp
  rw [Nat.mul_comm]
  have hd := Nat.div_add_mod (v + (a - 1)) a
  have hm := Nat.mod_lt (v + (a - 1)) ha
  omega

theorem align64_eq_alignUp (v a : Nat) (ha : 0 < a) (h : v + a ≤ U64) :
    align64 v a = alignUp v a := by
  unfold align64 alignUp
  have h1 : v + (a - 1) < U64 := by omega
  rw [Nat.mod_eq_of_lt h1]
  have h2 : (v + (a - 1)) / a * a ≤ v + (a - 1) := Nat.div_mul_le_self _ _
  exact Nat.mod_eq_of_lt (by omega)

/-- Decode a byte list as a little-endian natural number. -/
def decLE (bs : List Nat) : Nat := bs.foldr (fun b acc => b + 256 * acc) 0

/-- Decode a byte list as a big-endian natural number. -/
def decBE (bs : List Nat) : Nat := bs.foldl (fun acc b => 256 * acc + b) 0

/-- Checked read of `n` bytes at position `pos` of a file (a byte list):
`xread(..., n, 1)` aborts unless all `n` bytes are available, so the read
returns `none` exactly when the file is too short. -/
def readN (f : List Nat) (pos n : Nat) : Option (List Nat) :=
  if pos + n ≤ f.length then some ((f.drop pos).take n) else none

/-- `xswap32`: byte-reverse a 32-bit value. -/
def swap32 (m : Nat) : Nat :=
  m % 256 * 16777216 + m / 256 % 256 * 65536 + m / 65536 % 256 * 256 +
    m / 16777216 % 256

/-- The Haiku resource magic `0x444f1000`. -/
def HAIKU_RSRC_HEADER_MAGIC : Nat := 0x444f1000

/-!
## `haiku_parse_rsrc_header` (fatelf-haiku.c, C8)

The file is a byte list; the host is little-endian, so the raw 4-byte read
into a `uint32_t` decodes little-endian.  `xread(..., 4, 1)` is fatal when
fewer than 4 bytes remain, which the embedding reports as `Except.error`.
-/

def haiku_parse_rsrc_header (f : List Nat) (offset : Nat) :
    Except Unit (Option Nat) :=
  let fileSize := f.length
  if fileSize ≤ offset then .ok none
  else
    match readN f offset 4 with
    | none => .error ()
    | some bs =>
      let magic := decLE bs
      if magic ≠ HAIKU_RSRC_HEADER_MAGIC ∧
          swap32 magic ≠ HAIKU_RSRC_HEADER_MAGIC then
        .ok none
      else
        .ok (some (fileSize - offset))

/-- The behaviour of `haiku_parse_rsrc_header` restated per the amended
claim: "no resource" when the file ends at or before the offset, a fatal
truncated read when 1–3 bytes remain, and otherwise the magic test on the
32-bit word at the offset. -/
def parse_rsrc_header_spec (f : List Nat) (offset : Nat) :
    Except Unit (Option Nat) :=
  if f.length ≤ offset then .ok none
  else if f.length < offset + 4 then .error ()
  else
    let w := decLE ((f.drop offset).take 4)
    if w = HAIKU_RSRC_HEADER_MAGIC ∨ swap32 w = HAIKU_RSRC_HEADER_MAGIC then
      .ok (some (f.length - offset))
    else .ok none

/-!
## Carried-resource descriptor tracking in `fatelf_glue` (C1)

Each input is summarised by what `haiku_find_rsrc` reports for it:
`some (offset, size)` when the file carries a Haiku resource, else `none`.
The C loop stores the reported offset and size into `resource.offset` /
`resource.size` unconditionally on every carrying input and only guards
`resource.idx` by `idx == -1`; the state below is `(idx, offset, size)`
with `idx : Option Nat` for the C sentinel `-1`.
-/

def glueRsrcFold (inputs : List (Option (Nat × Nat))) :
    Option Nat × Nat × Nat :=
  inputs.enum.foldl
    (fun st e =>
      match e with
      | (i, some (o, s)) => (if st.1 = none then some i else st.1, o, s)
      | (_, none) => st)
    (none, 0, 0)

/-!
## FatELF records and container layout (C3, C4, C7, C10)
-/

/-- A FatELF record as filled in by `fatelf_glue`: the target tuple read
from the input's ELF identification plus the payload position. -/
structure FATELF_record where
  machine : Nat
  osabi : Nat
  osabi_version : Nat
  word_size : Nat
  byte_order : Nat
  offset : Nat
  size : Nat
deriving DecidableEq, Repr

instance : Inhabited FATELF_record :=
  ⟨{ machine := 0, osabi := 0, osabi_version := 0, word_size := 0,
     byte_order := 0, offset := 0, size := 0 }⟩

/-- Modelled from the spec: `fatelf_record_matches` lives in
`fatelf-utils.c`, which is not among the excerpted sources; §4.3 of the
specification defines it as equality of the target-equivalence tuple
`{machine, osabi, osabi_version, word_size, byte_order}`. -/
def fatelf_record_matches (a b : FATELF_record) : Bool :=
  a.machine == b.machine && a.osabi == b.osabi &&
    a.osabi_version == b.osabi_version && a.word_size == b.word_size &&
    a.byte_order == b.byte_order

/-- Modelled from the spec: `FATELF_DISK_FORMAT_SIZE(n)` lives in
`fatelf-utils.h`, which is not among the excerpted sources; §3 and §6 of
the specification give the on-disk header size as
`S(n) = fixed_prefix + n * record_size` with an 8-byte prefix and 24-byte
records. -/
def fatelf_disk_format_size (n : Nat) : Nat := 8 + 24 * n

/-- The container page size `P`; §4.3 and §9 of the specification fix the
default at 4096. -/
def FATELF_PAGE : Nat := 4096

/-- Modelled from the spec: `align_to_page` lives in `fatelf-utils.c`,
which is not among the excerpted sources; §4.3 of the specification
defines it as `align_up(x, P)` with `P = 4096`. -/
def align_to_page (x : Nat) : Nat := alignUp x FATELF_PAGE

/-- The payload offsets chosen by the `fatelf_glue` loop: the cursor
starts at the reserved on-disk header size, and each record is placed at
the page-aligned cursor, which then advances past the payload. -/
def glueOffsetsFrom (cur : Nat) : List Nat → List Nat
  | [] => []
  | s :: ss => align_to_page cur :: glueOffsetsFrom (align_to_page cur + s) ss

def glueOffsets (n : Nat) (sizes : List Nat) : List Nat :=
  glueOffsetsFrom (fatelf_disk_format_size n) sizes

/-- The zero-filled gaps written by `xwrite_zeros` before each payload:
pairs `(gap start, gap end)` where the gap end is the record's offset. -/
def glueGapsFrom (cur : Nat) : List Nat → List (Nat × Nat)
  | [] => []
  | s :: ss => (cur, align_to_page cur) :: glueGapsFrom (align_to_page cur + s) ss

def glueGaps (n : Nat) (sizes : List Nat) : List (Nat × Nat) :=
  glueGapsFrom (fatelf_disk_format_size n) sizes

/-- One iteration of the payload-copy loop: pad the output to page
alignment with zero bytes, then append the payload. -/
def glueStep (acc p : List Nat) : List Nat :=
  acc ++ List.replicate (align_to_page acc.length - acc.length) 0 ++ p

/-- The bytes of the glue output after the header padding and all payload
copies (the header region itself is zero-filled first and rewritten last;
its content is not modelled here). -/
def glueBytes (n : Nat) (payloads : List (List Nat)) : List Nat :=
  payloads.foldl glueStep (List.replicate (fatelf_disk_format_size n) 0)

/-- The record table produced by a glue run with the given payload sizes
(target-tuple fields are irrelevant to layout and left at defaults). -/
def glueRecords (n : Nat) (sizes : List Nat) : List FATELF_record :=
  ((glueOffsets n sizes).zip sizes).map
    (fun os => { (default : FATELF_record) with offset := os.1, size := os.2 })

/-!
## Duplicate-target detection in `fatelf_glue` (C4)

For each input `i` the loop compares the freshly read record against all
records `j < i` and aborts on a match.  `glueDupCheck` returns `true` iff
some iteration aborts.
-/

def glueDupCheckFrom (prior : List FATELF_record) :
    List FATELF_record → Bool
  | [] => false
  | r :: rest =>
    if prior.any (fun p => fatelf_record_matches r p) then true
    else glueDupCheckFrom (prior ++ [r]) rest

def glueDupCheck (recs : List FATELF_record) : Bool :=
  glueDupCheckFrom [] recs

/-!
## `haiku_fat_rsrc_offset` (fatelf-haiku.c, C7)
-/

/-- Modelled from the spec: `find_furthest_record` lives in
`fatelf-utils.c`, which is not among the excerpted sources; §4.2 of the
specification selects "the record with the largest `offset + size`"
(negative result only when there is no record). -/
def find_furthest_record (recs : List FATELF_record) :
    Option FATELF_record :=
  recs.foldl
    (fun acc r =>
      match acc with
      | none => some r
      | some br =>
        if r.offset + r.size > br.offset + br.size then some r
        else some br)
    none

/-- `haiku_fat_rsrc_offset`: the resource position of a FatELF container
is the furthest record's `offset + size`, rounded up to
`HAIKU_FAT_RSRC_ALIGN = 8` by the `ALIGN` macro in `uint64_t`. -/
def haiku_fat_rsrc_offset (recs : List FATELF_record) : Option Nat :=
  match find_furthest_record recs with
  | none => none
  | some r => some (align64 (add64 r.offset r.size) 8)

/-- The largest `offset + size` over a record list. -/
def recordsMaxEnd (recs : List FATELF_record) : Nat :=
  (recs.map (fun r => r.offset + r.size)).foldl max 0

/-- The file position `fatelf_glue` seeks to before copying the carried
resource: `haiku_rsrc_offset` on the freshly written output classifies it
as FatELF, reads back the header just serialized (spec §4.3 round-trip),
and applies `haiku_fat_rsrc_offset` to its records. -/
def fatelf_glue_rsrc_seek (n : Nat) (sizes : List Nat) : Option Nat :=
  haiku_fat_rsrc_offset (glueRecords n sizes)

/-!
## Regular-file byte-equality merge in `fatelf_merge_files` (C5)

The first input drives the loop (`nleft` is its size and its chunks are
written to the output); every other input is a peer stream that is
compared chunk by chunk and closed (`fds[i] = -1`, modelled as `none`)
on the first length or content mismatch.
-/

def MERGE_BUFSIZE : Nat := 4096

/-- One pass of the peer comparison for the current chunk of input 1. -/
def mergePeersStep (chunk : List Nat) (peers : List (Option (List Nat))) :
    List (Option (List Nat)) :=
  peers.map fun op =>
    match op with
    | none => none
    | some p =>
      let pc := p.take MERGE_BUFSIZE
      if pc.length ≠ chunk.length then none
      else if pc ≠ chunk then none
      else some (p.drop MERGE_BUFSIZE)

/-- The `while (nleft > 0)` loop of the regular-file merge path: returns
the bytes written to the output and the final peer states. -/
def mergeRegular (f1 : List Nat) (peers : List (Option (List Nat))) :
    List Nat × List (Option (List Nat)) :=
  if f1 = [] then ([], peers)
  else
    let chunk := f1.take MERGE_BUFSIZE
    let rest := mergeRegular (f1.drop MERGE_BUFSIZE)
      (mergePeersStep chunk peers)
    (chunk ++ rest.1, rest.2)
termination_by f1.length
decreasing_by
  simp only [List.length_drop, MERGE_BUFSIZE]
  have : f1.length ≠ 0 := fun h => by
    simp [List.length_eq_zero.mp h] at *
  omega

/-!
## The skip rule of `fatelf_recursive_glue` (C6)

`mergeDoneFlag` embeds the `merge_done` computation for one visited path:
`m` is the number of source roots, `ftsidx` the root being walked,
`targetExists` whether `lstat(target)` succeeds and `existsAt j` whether
the path exists under root `j`.  The C loop checks the flag condition
*before* appending root `diridx`'s path to `files`, so only peers
appended in an earlier iteration are seen.
-/

def mergeDoneFlag (m ftsidx : Nat) (targetExists : Bool)
    (existsAt : Nat → Bool) : Bool :=
  ((List.range m).foldl
    (fun (acc : List Nat × Bool) d =>
      let flag :=
        if ftsidx > 0 && targetExists && acc.1.any existsAt then true
        else acc.2
      let files := if existsAt d then acc.1 ++ [d] else acc.1
      (files, flag))
    ([], false)).2

/-- The skip rule as the claim states it: at least one peer from an
earlier root (`j < ftsidx`) exists. -/
def specSkipRule (ftsidx : Nat) (targetExists : Bool)
    (existsAt : Nat → Bool) : Bool :=
  ftsidx > 0 && targetExists && (List.range ftsidx).any existsAt

/-!
Abstract model of one recursive-merge run (C6): the output tree is a
store from paths to contents; the walk visits `(root, path)` pairs in a
fixed order determined solely by the unchanged source roots; a visit
either skips (per `mergeDoneFlag`) or installs the deterministic merge
result `mv path` of the unchanged sources at `path`.
-/

def runStep (m : Nat) (existsAt : Nat → Nat → Bool) (mv : Nat → Nat)
    (store : Nat → Option Nat) (v : Nat × Nat) : Nat → Option Nat :=
  if mergeDoneFlag m v.1 (store v.2).isSome (fun j => existsAt j v.2) then
    store
  else
    fun q => if q = v.2 then some (mv v.2) else store q

def runMerge (m : Nat) (existsAt : Nat → Nat → Bool) (mv : Nat → Nat)
    (visits : List (Nat × Nat)) (store : Nat → Option Nat) :
    Nat → Option Nat :=
  visits.foldl (runStep m existsAt mv) store

/-!
## GNU string-table handling in `ar_dostuff` (C9)
-/

/-- The name-length scan of `ar_dostuff`: walk the table bytes from the
referenced entry, stopping at the first `'/'` or after `name_max`
characters (`name_max = string_table_size - table_offset`, i.e. the table
end). -/
def gnu_scan (cs : List Char) (fuel : Nat) : List Char :=
  match cs, fuel with
  | c :: cs', f + 1 => if c = '/' then [] else c :: gnu_scan cs' f
  | _, _ => []

/-- Resolution of a `/<offset>` name against a captured GNU string
table: an offset at or past the table end is `xfail` (modelled as
`Except.error`); otherwise the name is scanned out of the table. -/
def resolveGnuName (table : List Char) (off : Nat) :
    Except Unit (List Char) :=
  if off ≥ table.length then .error ()
  else .ok (gnu_scan (table.drop off) (table.length - off))

/-- Parse the decimal offset of a `/<digits>` name as `sscanf("%ld")`
does: the maximal leading digit run. -/
def parseDec (cs : List Char) : Nat :=
  (cs.takeWhile Char.isDigit).foldl (fun a c => a * 10 + (c.toNat - 48)) 0

/-- One entry of the `ar_dostuff` streaming loop, restricted to the
trimmed-name stage (BSD `#1/` entries are resolved earlier from the
payload prefix and never reach the string-table logic).  The state is the
captured string table; the second component is the resolved entry name
(`none` for the `//` control member, which is captured instead of
surfaced). -/
def ar_step (st : Option (List Char)) (e : List Char × List Char) :
    Option (List Char) × Option (Except Unit (List Char)) :=
  let nm := e.1
  if nm = ['/', '/'] then (some e.2, none)
  else
    match nm, st with
    | '/' :: d :: ds, some tbl =>
      if d.isDigit then (st, some (resolveGnuName tbl (parseDec (d :: ds))))
      else (st, some (.ok nm))
    | _, _ => (st, some (.ok nm))

/-!
## `haiku_elf_rsrc_offset` (fatelf-haiku.c, C2)

Byte-level embedding.  The host is little-endian, so a field `xread` into
a host integer and passed through `get16/get32/get64` decodes
little-endian when `EI_DATA = 1` and big-endian otherwise (the swap
variants are installed whenever `ident[EI_DATA] != FATELF_HOST_ENDIAN`).
The embedding tracks the file position: `xread` advances it, and the C
code performs *no* seek between the ELF header and the program-header
table, nor between the two tables — each table is read from wherever the
previous read left the cursor, while `e_phoff` / `e_shoff` only enter the
table-end arithmetic.
-/

/-- Decode `len` bytes at offset `off` of an in-memory blob in the given
byte order (`be = true` for big-endian). -/
def fieldAt (blob : List Nat) (off len : Nat) (be : Bool) : Nat :=
  let bs := (blob.drop off).take len
  if be then decBE bs else decLE bs

/-- One program-header entry scan step (running maxima of the section
end and of `p_align`), shared by both classes. -/
def progEntryFold (pType pEnd pAlign : Nat) (acc : Nat × Nat) : Nat × Nat :=
  if pType = 0 then acc
  else
    (if pEnd > acc.1 then pEnd else acc.1,
     if pAlign > acc.2 then pAlign else acc.2)

/-- Scan the program-header blob as the C code does: entry `i` is read at
offset `i * sizeof(struct Phdr)` of the blob (32 bytes for ELF32 with
fields `p_type@0`, `p_offset@4`, `p_filesz@16`, `p_align@28`; 56 bytes
for ELF64 with `p_type@0`, `p_offset@8`, `p_filesz@32`, `p_align@48`). -/
def progScan (is64 : Bool) (be : Bool) (blob : List Nat) (count : Nat)
    (acc : Nat × Nat) : Nat × Nat :=
  (List.range count).foldl
    (fun a i =>
      if is64 then
        progEntryFold (fieldAt blob (56 * i) 4 be)
          (add64 (fieldAt blob (56 * i + 8) 8 be)
            (fieldAt blob (56 * i + 32) 8 be))
          (fieldAt blob (56 * i + 48) 8 be) a
      else
        progEntryFold (fieldAt blob (32 * i) 4 be)
          (add64 (fieldAt blob (32 * i + 4) 4 be)
            (fieldAt blob (32 * i + 16) 4 be))
          (fieldAt blob (32 * i + 28) 4 be) a)
    acc

/-- Scan the section-header blob: entry `i` at `i * sizeof(struct Shdr)`
(40 bytes for ELF32 with `sh_type@4`, `sh_offset@16`, `sh_size@20`;
64 bytes for ELF64 with `sh_type@4`, `sh_offset@24`, `sh_size@32`);
`SHT_NULL = 0` and `SHT_NOBITS = 8` entries are skipped. -/
def sectScan (is64 : Bool) (be : Bool) (blob : List Nat) (count : Nat)
    (acc : Nat) : Nat :=
  (List.range count).foldl
    (fun a i =>
      let ty := if is64 then fieldAt blob (64 * i + 4) 4 be
        else fieldAt blob (40 * i + 4) 4 be
      let en := if is64 then
          add64 (fieldAt blob (64 * i + 24) 8 be)
            (fieldAt blob (64 * i + 32) 8 be)
        else
          add64 (fieldAt blob (40 * i + 16) 4 be)
            (fieldAt blob (40 * i + 20) 4 be)
      if ty = 0 ∨ ty = 8 then a
      else if en > a then en else a)
    acc

/-- `haiku_elf_rsrc_offset`, byte-level.  Result: `Except.error` for
`xfail` or a fatal short read, `.ok none` for "not an ELF file" (return
value 0), `.ok (some off)` for a computed offset. -/
def haiku_elf_rsrc_offset (f : List Nat) : Except Unit (Option Nat) :=
  match readN f 0 16 with
  | none => .error ()
  | some ident =>
    if ident.take 4 ≠ [0x7f, 0x45, 0x4c, 0x46] then .ok none
    else
      let cls := ident.getD 4 0
      let be := ident.getD 5 0 ≠ 1
      if cls = 1 ∨ cls = 2 then
        let is64 := cls = 2
        let ehsz := if is64 then 64 else 52
        match readN f 0 ehsz with
        | none => .error ()
        | some ehdr =>
          let phoff := if is64 then fieldAt ehdr 32 8 be
            else fieldAt ehdr 28 4 be
          let phentsize := if is64 then fieldAt ehdr 54 2 be
            else fieldAt ehdr 42 2 be
          let phnum := if is64 then fieldAt ehdr 56 2 be
            else fieldAt ehdr 44 2 be
          let shoff := if is64 then fieldAt ehdr 40 8 be
            else fieldAt ehdr 32 4 be
          let shentsize := if is64 then fieldAt ehdr 58 2 be
            else fieldAt ehdr 46 2 be
          let shnum := if is64 then fieldAt ehdr 60 2 be
            else fieldAt ehdr 48 2 be
          let pos := ehsz
          -- program-header table, read at the current position
          let progPart : Except Unit ((Nat × Nat) × Nat) :=
            if phoff ≠ 0 then
              let tsize := mul64 phentsize phnum
              let tend := add64 phoff tsize
              let ro := if tend > 0 then tend else 0
              match readN f pos tsize with
              | none => .error ()
              | some blob =>
                .ok (progScan is64 be blob phnum (ro, 0), pos + tsize)
            else .ok ((0, 0), pos)
          match progPart with
          | .error () => .error ()
          | .ok ((ro1, ra1), pos1) =>
            -- section-header table, read at the current position
            let sectPart : Except Unit Nat :=
              if shoff ≠ 0 then
                let tsize := mul64 shentsize shnum
                let tend := add64 shoff tsize
                let ro := if tend > ro1 then tend else ro1
                match readN f pos1 tsize with
                | none => .error ()
                | some blob => .ok (sectScan is64 be blob shnum ro)
              else .ok ro1
            match sectPart with
            | .error () => .error ()
            | .ok ro2 =>
              let ra2 := if is64 then 8 else if ra1 < 32 then 32 else ra1
              .ok (some (align64 ro2 ra2))
      else .error ()

/-!
The resource-offset computation as claim C2 states it: the same header
fields, but with the program- and section-header entries read from the
tables at `e_phoff` / `e_shoff`, and pure (non-wrapping) arithmetic.
-/

/-- The claimed `max_end` / `align` computation over an ELF byte file,
with the entry tables located at their declared offsets. -/
def elf_rsrc_offset_claim (f : List Nat) : Option Nat :=
  match readN f 0 16 with
  | none => none
  | some ident =>
    if ident.take 4 ≠ [0x7f, 0x45, 0x4c, 0x46] then none
    else
      let cls := ident.getD 4 0
      let be := ident.getD 5 0 ≠ 1
      if cls = 1 ∨ cls = 2 then
        let is64 := cls = 2
        let ehsz := if is64 then 64 else 52
        match readN f 0 ehsz with
        | none => none
        | some ehdr =>
          let phoff := if is64 then fieldAt ehdr 32 8 be
            else fieldAt ehdr 28 4 be
          let phentsize := if is64 then fieldAt ehdr 54 2 be
            else fieldAt ehdr 42 2 be
          let phnum := if is64 then fieldAt ehdr 56 2 be
            else fieldAt ehdr 44 2 be
          let shoff := if is64 then fieldAt ehdr 40 8 be
            else fieldAt ehdr 32 4 be
          let shentsize := if is64 then fieldAt ehdr 58 2 be
            else fieldAt ehdr 46 2 be
          let shnum := if is64 then fieldAt ehdr 60 2 be
            else fieldAt ehdr 48 2 be
          let pblob := (f.drop phoff).take (phentsize * phnum)
          let sblob := (f.drop shoff).take (shentsize * shnum)
          let pstride := if is64 then 56 else 32
          let progEnds := (List.range phnum).filterMap fun i =>
            let ty := fieldAt pblob (pstride * i) 4 be
            if ty = 0 then none
            else if is64 then
              some (fieldAt pblob (pstride * i + 8) 8 be +
                fieldAt pblob (pstride * i + 32) 8 be)
            else
              some (fieldAt pblob (pstride * i + 4) 4 be +
                fieldAt pblob (pstride * i + 16) 4 be)
          let progAligns := (List.range phnum).filterMap fun i =>
            let ty := fieldAt pblob (pstride * i) 4 be
            if ty = 0 then none
            else if is64 then some (fieldAt pblob (pstride * i + 48) 8 be)
            else some (fieldAt pblob (pstride * i + 28) 4 be)
          let sstride := if is64 then 64 else 40
          let sectEnds := (List.range shnum).filterMap fun i =>
            let ty := fieldAt sblob (sstride * i + 4) 4 be
            if ty = 0 ∨ ty = 8 then none
            else if is64 then
              some (fieldAt sblob (sstride * i + 24) 8 be +
                fieldAt sblob (sstride * i + 32) 8 be)
            else
              some (fieldAt sblob (sstride * i + 16) 4 be +
                fieldAt sblob (sstride * i + 20) 4 be)
          let maxEnd :=
            ((phoff + phentsize * phnum) :: (shoff + shentsize * shnum) ::
              (progEnds ++ sectEnds)).foldl max 0
          let algn := if is64 then 8
            else max (progAligns.foldl max 0) 32
          some (alignUp maxEnd algn)
      else none

/-- The ELF32 little-endian byte file used to exercise the table reads of
`haiku_elf_rsrc_offset`: no program headers (`e_phoff = 0`), one section
header at `e_shoff = 100` describing a `SHT_PROGBITS` section with
`sh_offset = 200` and `sh_size = 56`; the bytes at positions 52–91 (where
the code actually reads the section table from) are zero. -/
def c2file : List Nat :=
  [0x7f, 0x45, 0x4c, 0x46, 1, 1, 1, 0, 0, 0, 0, 0, 0, 0, 0, 0,
   2, 0, 3, 0, 1, 0, 0, 0, 0, 0, 0, 0,
   0, 0, 0, 0,
   100, 0, 0, 0,
   0, 0, 0, 0,
   52, 0, 0, 0, 0, 0, 40, 0, 1, 0, 0, 0]
  ++ List.replicate 48 0
  ++ [0, 0, 0, 0, 1, 0, 0, 0, 0, 0, 0, 0, 0, 0, 0, 0,
      200, 0, 0, 0, 56, 0, 0, 0, 0, 0, 0, 0, 0, 0, 0, 0,
      0, 0, 0, 0, 0, 0, 0, 0]
  ++ List.replicate 116 0

/-!
# Theorems
-/

/-- C1.  The carried-resource descriptor after the glue loop, on two
inputs that both carry resources (input 0 at byte range `(10, 20)`,
input 1 at `(30, 40)`): the recorded index is that of the first carrying
input, but `resource.offset` and `resource.size` are overwritten by every
later carrying input, so the final copy reads range `(30, 40)` — the
*last* carrier's range — from input 0, not the recorded-once range
`(10, 20)` the claim (and the code's own comment "we select the resources
from the first file") describes. -/
theorem claim_C1_code_eval :
    glueRsrcFold [some (10, 20), some (30, 40)] = (some 0, 30, 40) ∧
      glueRsrcFold [some (10, 20), some (30, 40)] ≠ (some 0, 10, 20) := by
  constructor <;> decide

/-- C8 (counterexample to the claim as stated).  On a 1-byte file at
offset 0 the file size exceeds the offset, but the 4-byte magic read is
short, so `xread(..., 4, 1)` aborts: the parse neither reports "no
resource" nor a resource, contradicting the claim that it always reports
one of the two once `file_size > offset`. -/
theorem claim_C8_truncated_cex :
    haiku_parse_rsrc_header [0] 0 = Except.error () ∧
      haiku_parse_rsrc_header [0] 0 ≠ Except.ok none ∧
      ∀ s, haiku_parse_rsrc_header [0] 0 ≠ Except.ok (some s) := by
  refine ⟨rfl, by simp [haiku_parse_rsrc_header, readN], ?_⟩
  intro s
  simp [haiku_parse_rsrc_header, readN]

/-- C8 (amended).  The resource-header parse reports "no resource" when
the file size is at most the offset; it aborts with a truncated-read
error when the file extends past the offset by fewer than 4 bytes; and
otherwise it reports a resource of size `file_size - offset` iff the
32-bit word at the offset equals `0x444f1000` natively or byte-swapped. -/
theorem claim_C8_parse_eq (f : List Nat) (offset : Nat) :
    haiku_parse_rsrc_header f offset = parse_rsrc_header_spec f offset := by
  unfold haiku_parse_rsrc_header parse_rsrc_header_spec readN
  by_cases h1 : f.length ≤ offset
  · simp [h1]
  · simp only [h1, if_false, if_neg h1]
    by_cases h2 : offset + 4 ≤ f.length
    · simp only [if_pos h2, if_neg (by omega : ¬ f.length < offset + 4)]
      by_cases h3 : decLE ((f.drop offset).take 4) = HAIKU_RSRC_HEADER_MAGIC ∨
          swap32 (decLE ((f.drop offset).take 4)) = HAIKU_RSRC_HEADER_MAGIC
      · simp only [if_pos h3]
        rw [if_neg]
        simp only [not_and_or, not_not]
        tauto
      · simp only [if_neg h3]
        rw [if_pos]
        push_neg at h3
        exact h3
    · simp only [if_neg h2, if_pos (by omega : f.length < offset + 4)]

section C2Eval

set_option maxRecDepth 40000

/-- C2.  On `c2file`, `haiku_elf_rsrc_offset` returns 160: it never seeks
to `e_shoff` (or `e_phoff`) before reading a header table, so it decodes
the zero bytes at file position 52 as the single section header
(`SHT_NULL`, skipped) and only the table-end term `100 + 40 = 140`
survives, aligned up to 32.  The computation the claim describes — with
the section entries read from the section-header table at `e_shoff` —
sees the `SHT_PROGBITS` entry ending at `200 + 56 = 256` and returns
`align_up(256, 32) = 256`. -/
theorem claim_C2_code_eval :
    haiku_elf_rsrc_offset c2file = Except.ok (some 160) ∧
      elf_rsrc_offset_claim c2file = some 256 := by
  exact ⟨rfl, rfl⟩

end C2Eval

/-- C6 (counterexample to the claimed mechanism).  With three roots,
while walking root 1, a path existing only under root 1 itself with an
already-existing target: the code's `merge_done` flag is `true` (the
walked root's own path was appended to `files` before the check at
`diridx = 2`), although no peer from an earlier root (`j < 1`) exists, so
the claimed "at least one peer from an earlier root" rule says not to
skip. -/
theorem claim_C6_skip_rule_cex :
    mergeDoneFlag 3 1 true (fun j => j == 1) = true ∧
      specSkipRule 1 true (fun j => j == 1) = false := by
  constructor <;> decide

theorem foldl_max_init (l : List Nat) (a : Nat) :
    l.foldl max a = max a (l.foldl max 0) := by
  induction l generalizing a with
  | nil => simp
  | cons e l IH =>
    simp only [List.foldl_cons]
    rw [IH (max a e), IH (max 0 e)]
    simp [Nat.max_assoc]

theorem mergeDoneAux (m ftsidx : Nat) (t : Bool) (e : Nat → Bool) :
    (List.range m).foldl
      (fun (acc : List Nat × Bool) d =>
        let flag :=
          if ftsidx > 0 && t && acc.1.any e then true else acc.2
        let files := if e d then acc.1 ++ [d] else acc.1
        (files, flag))
      ([], false) =
    ((List.range m).filter e,
      decide (0 < ftsidx) && t && (List.range (m - 1)).any e) := by
  induction m with
  | zero => simp
  | succ m IH =>
    rw [List.range_succ, List.foldl_append, IH, List.filter_append]
    simp only [List.foldl_cons, List.foldl_nil]
    congr 1
    · cases he : e m <;> simp [List.filter_cons, he]
    · have hfa : ((List.range m).filter e).any e = (List.range m).any e := by
        simp [List.any_filter, Bool.and_self]
      rw [hfa]
      rcases Nat.eq_zero_or_pos m with rfl | hm


      · simp
      · have hm1 : m - 1 ≤ m := Nat.sub_le _ _
        have himp : (List.range (m - 1)).any e = true → (List.range m).any e = true := by
          intro h
          rw [List.any_eq_true] at h ⊢
          obtain ⟨x, hx, hex⟩ := h
          exact ⟨x, by simp only [List.mem_range] at hx ⊢; omega, hex⟩
        have hms : m + 1 - 1 = m := rfl
        rw [hms]
        cases h1 : (List.range (m - 1)).any e
        · cases h2 : (List.range m).any e <;>
            cases hc : decide (0 < ftsidx) && t <;> simp [h1, h2, hc]
        · have h2 := himp h1
          cases hc : decide (0 < ftsidx) && t <;> simp [h1, h2, hc]

/-- Characterisation of the code's skip condition: skip iff the walked
root is not the first, the target exists, and the path exists under some
root of index at most `m - 2` (any root checked before the final
peer-list iteration — not only roots earlier than the walked one). -/
theorem mergeDoneFlag_eq (m ftsidx : Nat) (t : Bool) (e : Nat → Bool) :
    mergeDoneFlag m ftsidx t e =
      (decide (0 < ftsidx) && t && (List.range (m - 1)).any e) := by
  unfold mergeDoneFlag
  rw [mergeDoneAux]

theorem runMerge_not_visited (m : Nat) (e : Nat → Nat → Bool) (mv : Nat → Nat)
    (visits : List (Nat × Nat)) (store : Nat → Option Nat) (p : Nat)
    (h : ∀ v ∈ visits, v.2 ≠ p) :
    runMerge m e mv visits store p = store p := by
  induction visits generalizing store with
  | nil => rfl
  | cons v vs IH =>
    have hv : v.2 ≠ p := h v (List.mem_cons_self _ _)
    have hrest : ∀ w ∈ vs, w.2 ≠ p := fun w hw => h w (List.mem_cons_of_mem _ hw)
    show runMerge m e mv vs (runStep m e mv store v) p = store p
    rw [IH _ hrest]
    unfold runStep
    split
    · rfl
    · have hq : p ≠ v.2 := fun hq => hv hq.symm
      simp [hq]

theorem runMerge_stable (m : Nat) (e : Nat → Nat → Bool) (mv : Nat → Nat)
    (visits : List (Nat × Nat)) (store : Nat → Option Nat) (p : Nat)
    (h : store p = some (mv p)) :
    runMerge m e mv visits store p = some (mv p) := by
  induction visits generalizing store with
  | nil => exact h
  | cons v vs IH =>
    show runMerge m e mv vs (runStep m e mv store v) p = some (mv p)
    refine IH _ ?_
    unfold runStep
    split
    · exact h
    · by_cases hq : p = v.2
      · subst hq; simp
      · simp [if_neg hq, h]

theorem runMerge_writes (m : Nat) (e : Nat → Nat → Bool) (mv : Nat → Nat)
    (visits : List (Nat × Nat)) (store : Nat → Option Nat) (p : Nat)
    (hmem : p ∈ visits.map Prod.snd) (h : store p = none) :
    runMerge m e mv visits store p = some (mv p) := by
  induction visits generalizing store with
  | nil => simp at hmem
  | cons v vs IH =>
    show runMerge m e mv vs (runStep m e mv store v) p = some (mv p)
    by_cases hv : v.2 = p
    · have hstep : runStep m e mv store v p = some (mv p) := by
        unfold runStep
        rw [hv, h]
        simp [mergeDoneFlag_eq]
      exact runMerge_stable m e mv vs _ p hstep
    · rcases List.mem_map.mp hmem with ⟨w, hw, hwp⟩
      rcases List.mem_cons.mp hw with rfl | hw'
      · exact absurd hwp hv
      · refine IH _ (List.mem_map.mpr ⟨w, hw', hwp⟩) ?_
        unfold runStep
        split
        · exact h
        · simp [if_neg (fun hq : p = v.2 => hv hq.symm), h]

/-- C6 (amended).  Running the recursive tree merge twice with the same
`out_root` and source roots yields the same content as running it once.
The mechanism, however, is the code's actual skip rule (see
`mergeDoneFlag_eq`): while walking root `i > 0`, a path whose target
already exists and that exists under some root checked before the final
peer-list iteration (index `≤ m - 2`, possibly the walked root itself) is
not merged again; idempotence holds regardless, because a re-merge of the
unchanged sources deterministically rewrites the same content.  The model
runs the fixed visit sequence (root, path) over a path-indexed store,
starting from an empty `out_root`. -/
theorem claim_C6_idempotent (m : Nat) (e : Nat → Nat → Bool)
    (mv : Nat → Nat) (visits : List (Nat × Nat)) :
    runMerge m e mv visits (runMerge m e mv visits (fun _ => none)) =
      runMerge m e mv visits (fun _ => none) := by
  funext p
  by_cases hp : p ∈ visits.map Prod.snd
  · have h1 : runMerge m e mv visits (fun _ => none) p = some (mv p) :=
      runMerge_writes m e mv visits _ p hp rfl
    rw [runMerge_stable m e mv visits _ p h1, h1]
  · have hnv : ∀ v ∈ visits, v.2 ≠ p := by
      intro v hv hq
      exact hp (List.mem_map.mpr ⟨v, hv, hq⟩)
    rw [runMerge_not_visited m e mv visits _ p hnv]

theorem glueOffsetsFrom_mem (sizes : List Nat) (cur o : Nat)
    (h : o ∈ glueOffsetsFrom cur sizes) :
    o % FATELF_PAGE = 0 ∧ cur ≤ o := by
  induction sizes generalizing cur with
  | nil => simp [glueOffsetsFrom] at h
  | cons s rest IH =>
    simp only [glueOffsetsFrom, List.mem_cons] at h
    rcases h with rfl | h
    · exact ⟨alignUp_mod _ _, alignUp_ge _ _ (by decide)⟩
    · have h2 := IH (align_to_page cur + s) h
      have h3 := alignUp_ge cur FATELF_PAGE (by decide)
      exact ⟨h2.1, by unfold align_to_page at h2; omega⟩

theorem glueStep_length (acc p : List Nat) :
    (glueStep acc p).length = align_to_page acc.length + p.length := by
  have h := alignUp_ge acc.length FATELF_PAGE (by decide)
  simp only [glueStep, List.length_append, List.length_replicate]
  unfold align_to_page at h ⊢
  omega

theorem glueFold_get_early (ps : List (List Nat)) (acc : List Nat) (q : Nat)
    (h : q < acc.length) :
    (ps.foldl glueStep acc)[q]? = acc[q]? := by
  induction ps generalizing acc with
  | nil => rfl
  | cons p ps IH =>
    show (ps.foldl glueStep (glueStep acc p))[q]? = acc[q]?
    have h2 : q < (glueStep acc p).length := by
      rw [glueStep_length]
      have := alignUp_ge acc.length FATELF_PAGE (by decide)
      unfold align_to_page
      omega
    rw [IH _ h2]
    unfold glueStep
    rw [List.append_assoc, List.getElem?_append_left h]

theorem glueFold_gap_zero (ps : List (List Nat)) (acc : List Nat) :
    ∀ g ∈ glueGapsFrom acc.length (ps.map List.length), ∀ q, g.1 ≤ q →
      q < g.2 → (ps.foldl glueStep acc)[q]? = some 0 := by
  induction ps generalizing acc with
  | nil => simp [glueGapsFrom]
  | cons p ps IH =>
    intro g hg q hq1 hq2
    simp only [List.map_cons, glueGapsFrom, List.mem_cons] at hg
    rcases hg with rfl | hg
    · -- the gap freshly zero-filled before payload `p`
      show (ps.foldl glueStep (glueStep acc p))[q]? = some 0
      have hq1' : acc.length ≤ q := hq1
      have hq2' : q < align_to_page acc.length := hq2
      have hlt : q < (glueStep acc p).length := by
        rw [glueStep_length]
        omega
      rw [glueFold_get_early ps _ q hlt]
      unfold glueStep
      rw [List.append_assoc,
        List.getElem?_append_right (by omega : acc.length ≤ q),
        List.getElem?_append_left (by rw [List.length_replicate]; omega),
        List.getElem?_replicate_of_lt (by omega)]
    · -- a later gap: recurse with the grown accumulator
      show (ps.foldl glueStep (glueStep acc p))[q]? = some 0
      have hlen : (glueStep acc p).length = align_to_page acc.length + p.length :=
        glueStep_length acc p
      exact IH (glueStep acc p) g (by rw [hlen]; exact hg) q hq1 hq2

/-- C3.  For a glue run with `1 ≤ n ≤ 255` payloads, every record offset
is a multiple of the container page size 4096 and at least the on-disk
header size `S(n) = 8 + 24n`, and every byte of the output between the
header end and the first payload and between consecutive payloads
(`glueGaps`: each gap ends at the next record's offset) is zero. -/
theorem claim_C3_layout (payloads : List (List Nat))
    (_h1 : 1 ≤ payloads.length) (_h2 : payloads.length ≤ 255) :
    (∀ o ∈ glueOffsets payloads.length (payloads.map List.length),
      o % FATELF_PAGE = 0 ∧ fatelf_disk_format_size payloads.length ≤ o) ∧
    ∀ g ∈ glueGaps payloads.length (payloads.map List.length), ∀ q,
      g.1 ≤ q → q < g.2 → (glueBytes payloads.length payloads)[q]? = some 0 := by
  constructor
  · intro o ho
    exact glueOffsetsFrom_mem _ _ _ ho
  · intro g hg q hq1 hq2
    unfold glueBytes
    have hlen : (List.replicate (fatelf_disk_format_size payloads.length)
        (0 : Nat)).length = fatelf_disk_format_size payloads.length :=
      List.length_replicate _ _
    refine glueFold_gap_zero payloads _ g ?_ q hq1 hq2
    rw [hlen]
    exact hg

theorem zip_offsets_lower (sizes : List Nat) (cur : Nat)
    (b : Nat × Nat) (hb : b ∈ (glueOffsetsFrom cur sizes).zip sizes) :
    cur ≤ b.1 := by
  induction sizes generalizing cur with
  | nil => simp [glueOffsetsFrom] at hb
  | cons s rest IH =>
    simp only [glueOffsetsFrom, List.zip_cons_cons, List.mem_cons] at hb
    rcases hb with rfl | hb
    · exact alignUp_ge _ _ (by decide)
    · have h2 := IH (align_to_page cur + s) hb
      have h3 := alignUp_ge cur FATELF_PAGE (by decide)
      unfold align_to_page at h2
      omega

theorem glue_chain (sizes : List Nat) (cur : Nat) :
    List.Chain'
      (fun a b : Nat × Nat =>
        b.1 = align_to_page (a.1 + a.2) ∧ a.1 + a.2 ≤ b.1)
      ((glueOffsetsFrom cur sizes).zip sizes) := by
  induction sizes generalizing cur with
  | nil => simp [glueOffsetsFrom]
  | cons s rest IH =>
    simp only [glueOffsetsFrom, List.zip_cons_cons]
    rw [List.chain'_cons']
    refine ⟨?_, IH (align_to_page cur + s)⟩
    intro y hy
    cases rest with
    | nil => simp [glueOffsetsFrom] at hy
    | cons s' rest' =>
      simp only [glueOffsetsFrom, List.zip_cons_cons, List.head?_cons,
        Option.mem_def, Option.some.injEq] at hy
      subst hy
      exact ⟨rfl, alignUp_ge _ _ (by decide)⟩

theorem glue_pairwise (sizes : List Nat) (cur : Nat) :
    List.Pairwise (fun a b : Nat × Nat => a.1 + a.2 ≤ b.1)
      ((glueOffsetsFrom cur sizes).zip sizes) := by
  induction sizes generalizing cur with
  | nil => simp [glueOffsetsFrom]
  | cons s rest IH =>
    simp only [glueOffsetsFrom, List.zip_cons_cons]
    refine List.Pairwise.cons ?_ (IH (align_to_page cur + s))
    intro b hb
    exact zip_offsets_lower rest _ b hb

/-- C10.  The glue layout: adjacent records satisfy
`offset_(i+1) = page_align(offset_i + size_i) ≥ offset_i + size_i`
(`Chain'`), record 0's offset is at least the reserved header size
`S(n)`, and the payload intervals are pairwise disjoint and strictly
ordered (`Pairwise`: every earlier record's end is at most every later
record's offset) — in particular the write cursor never moves backward. -/
theorem claim_C10_monotone_layout (n : Nat) (sizes : List Nat) :
    List.Chain'
      (fun a b : Nat × Nat =>
        b.1 = align_to_page (a.1 + a.2) ∧ a.1 + a.2 ≤ b.1)
      ((glueOffsets n sizes).zip sizes) ∧
    (∀ a ∈ ((glueOffsets n sizes).zip sizes).head?,
      fatelf_disk_format_size n ≤ a.1) ∧
    List.Pairwise (fun a b : Nat × Nat => a.1 + a.2 ≤ b.1)
      ((glueOffsets n sizes).zip sizes) := by
  refine ⟨glue_chain sizes _, ?_, glue_pairwise sizes _⟩
  intro a ha
  rcases List.head?_eq_some_iff.mp ha with ⟨ys, hys⟩
  have : a ∈ (glueOffsets n sizes).zip sizes := by
    rw [hys]; exact List.mem_cons_self _ _
  have h2 := zip_offsets_lower sizes _ a this
  exact h2

/-- Witness for C3 at the concrete one-payload input `[[1]]`. -/
theorem claim_C3_layout_witness :
    1 ≤ ([[1]] : List (List Nat)).length ∧
    ([[1]] : List (List Nat)).length ≤ 255 ∧
    ((∀ o ∈ glueOffsets ([[1]] : List (List Nat)).length
        (([[1]] : List (List Nat)).map List.length),
      o % FATELF_PAGE = 0 ∧
        fatelf_disk_format_size ([[1]] : List (List Nat)).length ≤ o) ∧
    ∀ g ∈ glueGaps ([[1]] : List (List Nat)).length
        (([[1]] : List (List Nat)).map List.length), ∀ q,
      g.1 ≤ q → q < g.2 →
        (glueBytes ([[1]] : List (List Nat)).length
          ([[1]] : List (List Nat)))[q]? = some 0) :=
  ⟨by decide, by decide, claim_C3_layout [[1]] (by decide) (by decide)⟩

theorem record_matches_symm (a b : FATELF_record) :
    fatelf_record_matches a b = fatelf_record_matches b a := by
  unfold fatelf_record_matches
  apply Bool.eq_iff_iff.mpr
  simp only [Bool.and_eq_true, beq_iff_eq]
  omega

theorem dupCheckFrom_false_iff (l : List FATELF_record)
    (prior : List FATELF_record) :
    glueDupCheckFrom prior l = false ↔
      ((∀ r ∈ l, ∀ p ∈ prior, fatelf_record_matches r p = false) ∧
        List.Pairwise (fun a b => fatelf_record_matches a b = false) l) := by
  induction l generalizing prior with
  | nil => simp [glueDupCheckFrom]
  | cons r rest IH =>
    simp only [glueDupCheckFrom]
    by_cases hany : prior.any (fun p => fatelf_record_matches r p) = true
    · simp only [if_pos hany]
      rw [List.any_eq_true] at hany
      obtain ⟨p, hp, hm⟩ := hany
      constructor
      · intro h; exact absurd h (by simp)
      · rintro ⟨hall, -⟩
        have := hall r (List.mem_cons_self _ _) p hp
        rw [this] at hm
        exact absurd hm (by simp)
    · have hany' : prior.any (fun p => fatelf_record_matches r p) = false := by
        cases h : prior.any (fun p => fatelf_record_matches r p)
        · rfl
        · exact absurd h hany
      simp only [if_neg hany, IH (prior ++ [r]), List.pairwise_cons]
      rw [List.any_eq_false] at hany'
      constructor
      · rintro ⟨hall, hpw⟩
        refine ⟨?_, ?_, hpw⟩
        · intro x hx p hp
          rcases List.mem_cons.mp hx with rfl | hx'
          · cases h : fatelf_record_matches x p
            · rfl
            · exact absurd h (hany' p hp)
          · exact hall x hx' p (List.mem_append_left _ hp)
        · intro b hb
          rw [record_matches_symm]
          exact hall b hb r (List.mem_append_right _ (List.mem_cons_self _ _))
      · rintro ⟨hall, hhead, hpw⟩
        refine ⟨?_, hpw⟩
        intro x hx p hp
        rcases List.mem_append.mp hp with hp' | hp'
        · exact hall x (List.mem_cons_of_mem _ hx) p hp'
        · rcases List.mem_singleton.mp hp' with rfl
          rw [record_matches_symm]
          exact hhead x hx

/-- C4.  The glue duplicate-target check aborts iff two of its inputs
share the target tuple `{machine, osabi, osabi_version, word_size,
byte_order}`; equivalently, it passes exactly when the record list is
pairwise non-matching — so in every successfully produced container no
two records are target-equivalent. -/
theorem claim_C4_duplicate_target (recs : List FATELF_record) :
    glueDupCheck recs = false ↔
      List.Pairwise (fun a b => fatelf_record_matches a b = false) recs := by
  unfold glueDupCheck
  rw [dupCheckFrom_false_iff]
  simp

/-- C5.  In the regular-file merge path the output is byte-identical to
input 1 whether or not peers diverge, and a divergent peer is merely
closed (`none`), never removed from the peer list and never an error:
the merge is a total function and the final peer list has one slot per
peer. -/
theorem claim_C5_merge_regular (f1 : List Nat)
    (peers : List (Option (List Nat))) :
    (mergeRegular f1 peers).1 = f1 ∧
      (mergeRegular f1 peers).2.length = peers.length := by
  generalize hL : f1.length = L
  induction L using Nat.strong_induction_on generalizing f1 peers with
  | _ L IH =>
    rw [mergeRegular]
    by_cases h : f1 = []
    · simp [h]
    · simp only [if_neg h]
      have hlen : (f1.drop MERGE_BUFSIZE).length < L := by
        subst hL
        simp only [List.length_drop, MERGE_BUFSIZE]
        have : f1.length ≠ 0 := fun hz => h (List.length_eq_zero.mp hz)
        omega
      have hrec := IH _ hlen (f1.drop MERGE_BUFSIZE)
        (mergePeersStep (f1.take MERGE_BUFSIZE) peers) rfl
      constructor
      · show f1.take MERGE_BUFSIZE ++
          (mergeRegular (f1.drop MERGE_BUFSIZE)
            (mergePeersStep (f1.take MERGE_BUFSIZE) peers)).1 = f1
        rw [hrec.1]
        exact List.take_append_drop _ _
      · show (mergeRegular (f1.drop MERGE_BUFSIZE)
            (mergePeersStep (f1.take MERGE_BUFSIZE) peers)).2.length =
          peers.length
        rw [hrec.2]
        unfold mergePeersStep
        exact List.length_map _ _

theorem find_furthest_aux (l : List FATELF_record) (b : FATELF_record) :
    ∃ r, l.foldl
        (fun acc r =>
          match acc with
          | none => some r
          | some br =>
            if r.offset + r.size > br.offset + br.size then some r
            else some br)
        (some b) = some r ∧
      r.offset + r.size =
        max (b.offset + b.size)
          ((l.map (fun x => x.offset + x.size)).foldl max 0) := by
  induction l generalizing b with
  | nil => exact ⟨b, rfl, by simp⟩
  | cons r0 l IH =>
    simp only [List.foldl_cons, List.map_cons]
    by_cases hgt : r0.offset + r0.size > b.offset + b.size
    · simp only [if_pos hgt]
      obtain ⟨r, hr, hmax⟩ := IH r0
      refine ⟨r, hr, ?_⟩
      rw [hmax, foldl_max_init _ (max 0 (r0.offset + r0.size))]
      omega
    · simp only [if_neg hgt]
      obtain ⟨r, hr, hmax⟩ := IH b
      refine ⟨r, hr, ?_⟩
      rw [hmax, foldl_max_init _ (max 0 (r0.offset + r0.size))]
      omega

/-- C7.  The glue engine's final resource-copy position: for a non-empty
record table (as produced by a glue run with the given payload sizes,
read back from the output container), `haiku_rsrc_offset` on the output
resolves to `haiku_fat_rsrc_offset`, which is the largest
`offset + size` over the records, rounded up to 8 — so the carried
resource, when present, is copied to exactly
`align_up(max(offset + size), 8)` of the output file. -/
theorem haiku_fat_rsrc_offset_eq (recs : List FATELF_record)
    (h : recs ≠ []) (h2 : recordsMaxEnd recs + 8 ≤ U64) :
    haiku_fat_rsrc_offset recs = some (alignUp (recordsMaxEnd recs) 8) := by
  rcases recs with _ | ⟨r0, rest⟩
  · exact absurd rfl h
  · obtain ⟨r, hr, hmax⟩ := find_furthest_aux rest r0
    have hfold : find_furthest_record (r0 :: rest) = some r := by
      unfold find_furthest_record
      rw [List.foldl_cons]
      exact hr
    have hmaxEnd : recordsMaxEnd (r0 :: rest) = r.offset + r.size := by
      unfold recordsMaxEnd
      rw [List.map_cons, List.foldl_cons, foldl_max_init, hmax]
      omega
    unfold haiku_fat_rsrc_offset
    rw [hfold, hmaxEnd]
    rw [hmaxEnd] at h2
    show some (align64 (add64 r.offset r.size) 8) =
      some (alignUp (r.offset + r.size) 8)
    unfold add64
    rw [Nat.mod_eq_of_lt (by omega)]
    rw [align64_eq_alignUp _ _ (by decide) h2]

theorem claim_C7_fat_rsrc_offset (n : Nat) (sizes : List Nat)
    (h1 : sizes ≠ [])
    (h2 : recordsMaxEnd (glueRecords n sizes) + 8 ≤ U64) :
    fatelf_glue_rsrc_seek n sizes =
      some (alignUp (recordsMaxEnd (glueRecords n sizes)) 8) := by
  have hne : glueRecords n sizes ≠ [] := by
    unfold glueRecords glueOffsets
    intro hc
    rcases sizes with _ | ⟨s, rest⟩
    · exact h1 rfl
    · simp [glueOffsetsFrom] at hc
  exact haiku_fat_rsrc_offset_eq _ hne h2

/-- Witness for C7 at `n = 2`, payload sizes `[100, 50]`. -/
theorem claim_C7_fat_rsrc_offset_witness :
    ([100, 50] : List Nat) ≠ [] ∧
    recordsMaxEnd (glueRecords 2 [100, 50]) + 8 ≤ U64 ∧
    fatelf_glue_rsrc_seek 2 [100, 50] =
      some (alignUp (recordsMaxEnd (glueRecords 2 [100, 50])) 8) :=
  ⟨by decide, by decide,
    claim_C7_fat_rsrc_offset 2 [100, 50] (by decide) (by decide)⟩

theorem gnu_scan_takeWhile (cs : List Char) :
    gnu_scan cs cs.length = cs.takeWhile (fun c => c != '/') := by
  induction cs with
  | nil => rfl
  | cons c cs IH =>
    simp only [List.length_cons, gnu_scan, List.takeWhile_cons]
    by_cases hc : c = '/'
    · simp [hc]
    · have hb : (c != '/') = true := by simp [bne_iff_ne, hc]
      simp [hc, hb, IH]

/-- C9.  A `//` member's payload replaces any previously captured string
table; an entry named `/` followed by digits resolves, given a captured
table, to the table bytes starting at the decimal offset and ending at
the next `/` or at the table end, and an offset at or past the table end
is a fatal error. -/
theorem claim_C9_ar_string_table (st : Option (List Char))
    (tbl payload : List Char) (d : Char) (ds : List Char)
    (hd : d.isDigit = true) :
    ar_step st (['/', '/'], payload) = (some payload, none) ∧
    ar_step (some tbl) ('/' :: d :: ds, payload) =
      (some tbl,
        some (if parseDec (d :: ds) < tbl.length then
            Except.ok ((tbl.drop (parseDec (d :: ds))).takeWhile
              (fun c => c != '/'))
          else Except.error ())) := by
  constructor
  · rfl
  · have hne : ('/' :: d :: ds) ≠ ['/', '/'] := by
      intro hc
      have : d = '/' := by injection hc with _ h; injection h
      rw [this] at hd
      exact absurd hd (by decide)
    unfold ar_step
    simp only [if_neg hne, hd, if_pos]
    unfold resolveGnuName
    by_cases hoff : parseDec (d :: ds) ≥ tbl.length
    · rw [if_pos hoff, if_neg (by omega)]
    · rw [if_neg hoff, if_pos (by omega)]
      have hdrop : (tbl.drop (parseDec (d :: ds))).length =
          tbl.length - parseDec (d :: ds) := List.length_drop _ _
      rw [← hdrop, gnu_scan_takeWhile]

/-- Witness for C9: a GNU string table `"libfirstname.o/\nlibverylongname.o/\n"`
and a `/16` entry resolving to exactly `"libverylongname.o"`. -/
theorem claim_C9_ar_string_table_witness :
    ('1' : Char).isDigit = true ∧
    ar_step (some ("libfirstname.o/\nlibverylongname.o/\n".toList))
        (['/', '1', '6'], []) =
      (some ("libfirstname.o/\nlibverylongname.o/\n".toList),
        some (Except.ok "libverylongname.o".toList)) :=
  ⟨by decide,
    ((claim_C9_ar_string_table none
      ("libfirstname.o/\nlibverylongname.o/\n".toList) [] '1' ['6']
      (by decide)).2).trans (by rfl)⟩

end FatElf
